import Mathlib

/-!
Shallow embedding of the `agrep` regular-expression engine
(`src/ast.rs`, `src/regex.rs`, `src/nfa.rs`, `src/main.rs`) and proofs
about the claims of its specification.

Modelling conventions, used throughout:
* Rust `&str` patterns are modelled as `List Char`; the Rust cursor steps
  one Unicode scalar value at a time (`offset` plus `len_utf8`), which
  corresponds exactly to consuming one `Char` from the head of the list.
* Rust `Vec` stacks that push and pop at the back are kept head-first
  (push is cons); where a `Vec` is used in order (`Concat(stack)`),
  the model reverses the head-first list.
* `bail!`-style returned errors and panics (`panic!`, `unreachable!`,
  `todo!`, `unimplemented!`, failing `unwrap`, debug-mode arithmetic
  overflow) are distinct outcomes of the embedded functions.
* `u32` and `usize` are modelled as `Nat` with explicit bounds checks
  where the Rust program can overflow.
-/

namespace AGrep

/-! ## src/ast.rs : AST data model -/

namespace ast

/-- AnchorType from src/ast.rs. -/
inductive AnchorType where
  | LineStart
  | LineEnd
  deriving Repr, DecidableEq

/-- NamedClass from src/ast.rs. -/
inductive NamedClass where
  | Alnum | Alpha | Blank | Cntrl | Digit | Graph
  | Lower | Print | Punct | Space | Upper | XDigit
  deriving Repr, DecidableEq

/-- ClassItem from src/ast.rs; `Range` has fields `start` and `end` in the
source (`end` is a reserved word in Lean, so the fields are positional:
first the start, then the end of the range). -/
inductive ClassItem where
  | Ordinary (c : Char)
  | Range (start stop : Char)
  | Collating
  | Equivalence (c : Char)
  | Character (n : NamedClass)
  deriving Repr, DecidableEq

/-- RepetitionType from src/ast.rs; the `u32` counts are modelled as `Nat`
(the parser enforces the `u32` bound explicitly, see `parseIntLoop`). -/
inductive RepetitionType where
  | ZeroOrOne
  | ZeroOrMore
  | OneOrMore
  | Exact (n : Nat)
  | Lower (n : Nat)
  | Range (m n : Nat)
  deriving Repr, DecidableEq

/-- AST from src/ast.rs. -/
inductive AST where
  | Empty
  | Literal (c : Char)
  | Wildcard
  | Anchor (a : AnchorType)
  | Class (negated : Bool) (items : List ClassItem)
  | Group (child : AST)
  | Repetition (rep : RepetitionType) (child : AST)
  | Concat (xs : List AST)
  | Alternation (xs : List AST)
  deriving Repr

/-! ## src/ast.rs : the pattern parser

The Rust parser is a struct `Parser { offset, group_stack, class_stack }`
plus a borrowing helper `ParserVM`.  `offset` is reset to 0 at the start
of every `parse` call and never read across calls, and `class_stack` is
never touched at all, so the persistent parser state is exactly
`group_stack`.  The cursor (`offset` into the pattern) is modelled by
passing the remaining suffix of the pattern as a `List Char`. -/

/-- Outcome of a fallible parsing step: `ok`, a returned `anyhow` error
(`bail!` / `.context(...)` on `None`), or a panic (`panic!`,
`unreachable!`, `todo!`, a failing `unwrap`, or debug-mode integer
overflow). -/
inductive POut (α : Type) where
  | ok (a : α)
  | error
  | panicked
  deriving Repr, DecidableEq

/-- Outcome of a whole `Parser::parse` call.  `fuelOut` is an artifact of
the embedding of the main parser loop (which runs on fuel `|pattern| + 1`);
it is unreachable because every loop iteration consumes at least one
character of the pattern. -/
inductive ParseOutcome where
  | ok (a : AST)
  | error
  | panicked
  | fuelOut
  deriving Repr

/-- The set of Unicode code points with the White_Space property, as
tested by Rust `char::is_whitespace` in `ParserVM::strip`. -/
def rustIsWhitespace (c : Char) : Bool :=
  c.toNat ∈ [0x09, 0x0A, 0x0B, 0x0C, 0x0D, 0x20, 0x85, 0xA0, 0x1680,
    0x2000, 0x2001, 0x2002, 0x2003, 0x2004, 0x2005, 0x2006, 0x2007,
    0x2008, 0x2009, 0x200A, 0x2028, 0x2029, 0x202F, 0x205F, 0x3000]

/-- ParserVM::strip: advance the cursor past whitespace.  The Rust method
returns `!is_eof`; callers of this model test emptiness of the returned
suffix instead. -/
def strip : List Char → List Char
  | [] => []
  | c :: rest => if rustIsWhitespace c then strip rest else c :: rest

/-- ParserVM::parse_int: strip whitespace, then repeatedly consume one
decimal digit followed by more whitespace (`next_strip`), accumulating
`num = num * 10 + digit` in a `u32`.  The Rust loop alternates a digit
with a whitespace run; this model consumes whitespace and digits until
the first other character, which is the same traversal.  The accumulation
is checked against the `u32` bound: in the source this is unchecked
`u32` arithmetic which panics in debug builds (the source comment reads
"TODO: check for overflow -> currently panics"). -/
def parseIntLoop : List Char → Nat → POut (Nat × List Char)
  | [], num => .ok (num, [])
  | c :: rest, num =>
    if rustIsWhitespace c then parseIntLoop rest num
    else if c.isDigit then
      let num' := num * 10 + (c.toNat - '0'.toNat)
      if num' < 2 ^ 32 then parseIntLoop rest num'
      else .panicked
    else .ok (num, c :: rest)

/-- ParserVM::parse_repetition_range, entered with the cursor just past
the opening brace.  Returns the parsed repetition form together with the
cursor just past the closing brace (in the source the closing brace is
checked here and consumed by the immediately following
`parse_repetition`; this model consumes it here). -/
def parseRepetitionRange (l : List Char) : POut (RepetitionType × List Char) :=
  match strip l with
  | [] => .error
  | l1 =>
    match parseIntLoop l1 0 with
    | .panicked => .panicked
    | .error => .error
    | .ok (first, l2) =>
      match l2 with
      | [] => .error
      | ',' :: r2 =>
        match strip r2 with
        | [] => .error
        | '}' :: r4 => .ok (.Lower first, r4)
        | r3 =>
          match parseIntLoop r3 0 with
          | .panicked => .panicked
          | .error => .error
          | .ok (second, l4) =>
            if first > second then .error
            else
              match l4 with
              | '}' :: r5 => .ok (.Range first second, r5)
              | _ => .error
      | '}' :: r2 => .ok (.Exact first, r2)
      | _ => .error

/-- The inner loop of ParserVM::parse_class (`while self.char() != ']'`),
with the cursor at the next class character.  A nested bracket would call
`parse_enclosed_class`, which is `todo!()` and panics.  An empty suffix
means `self.char()` is called at end of input, whose `unwrap` panics;
the loop is in fact always entered with a character available. -/
def parseClassLoop : List Char → List ClassItem → POut (List ClassItem × List Char)
  | [], _ => .panicked
  | ']' :: rest, items => .ok (items, rest)
  | '[' :: _, _ => .panicked
  | _ :: '-' :: [], _ => .error
  | c :: '-' :: e :: rest3, items =>
    if c ≥ e then .error
    else
      match rest3 with
      | [] => .error
      | _ => parseClassLoop rest3 (items ++ [ClassItem.Range c e])
  | c :: rest, items =>
    match rest with
    | [] => .error
    | _ => parseClassLoop rest (items ++ [ClassItem.Ordinary c])

/-- The first-content-character rule of ParserVM::parse_class: a `]` or
`-` right after `[` (or after `[^`) is an ordinary character.  In that
branch a following end of input formats `self.char()` into the error
message, and `char()` at end of input panics on `unwrap`. -/
def parseClassFirst (l : List Char) : POut (List ClassItem × List Char) :=
  match l with
  | [] => .error
  | c :: rest =>
    if c = ']' ∨ c = '-' then
      match rest with
      | [] => .panicked
      | _ => parseClassLoop rest [ClassItem.Ordinary c]
    else parseClassLoop (c :: rest) []

/-- ParserVM::parse_class, entered with the cursor just past the opening
bracket.  Handles the optional leading `^` and delegates to
`parseClassFirst` and `parseClassLoop`. -/
def parseClass (l : List Char) : POut (AST × List Char) :=
  match l with
  | [] => .error
  | '^' :: rest =>
    match rest with
    | [] => .error
    | _ =>
      match parseClassFirst rest with
      | .ok (items, r) => .ok (.Class true items, r)
      | .error => .error
      | .panicked => .panicked
  | l =>
    match parseClassFirst l with
    | .ok (items, r) => .ok (.Class false items, r)
    | .error => .error
    | .panicked => .panicked

/-- The shared reduction of a working stack into one node, used by
`end_group`, `parse_alternate` and `finish_parse`:
empty gives `Empty`, a singleton gives its element, anything longer gives
`Concat`.  The stack is head-first, so `Concat` reverses it. -/
def reduceStack : List AST → AST
  | [] => .Empty
  | [a] => a
  | stack => .Concat stack.reverse

/-- ParserVM::parse_repetition without the cursor advance (the caller
consumes the operator character): pop the most recent node, reject an
empty stack or an `Empty` node, and push the `Repetition`. -/
def popWrap (stack : List AST) (rep : RepetitionType) : POut (List AST) :=
  match stack with
  | [] => .error
  | AST.Empty :: _ => .error
  | a :: stack' => .ok (AST.Repetition rep a :: stack')

/-- ParserVM::end_group after the group stack has been popped (`g` is the
popped frame): reduce the working stack, then either append the reduced
node to an in-progress `Alternation` at the top of the frame or push it
wrapped in `Group`; the frame becomes the new working stack. -/
def endGroupFrame (stack : List AST) (g : List AST) : List AST :=
  match g with
  | AST.Alternation alts :: grest => AST.Alternation (alts ++ [reduceStack stack]) :: grest
  | _ => AST.Group (reduceStack stack) :: g

/-- ParserVM::parse_alternate after the eof check: push a fresh frame if
the group stack is empty, then fold the reduced working stack into the
`Alternation` at the top of the topmost frame (creating it if absent);
the new working stack is empty. -/
def parseAlternate (stack : List AST) (gstack : List (List AST)) :
    List AST × List (List AST) :=
  let gstack' := if gstack.isEmpty then [[]] else gstack
  match gstack' with
  | [] => ([], [])
  | g :: gs =>
    match g with
    | AST.Alternation alts :: grest =>
      ([], (AST.Alternation (alts ++ [reduceStack stack]) :: grest) :: gs)
    | _ => ([], (AST.Alternation [reduceStack stack] :: g) :: gs)

/-- ParserVM::finish_parse: reduce the working stack; if a group frame
remains, pop one frame and fold the node into its trailing `Alternation`
(any other frame shape is `unreachable!()`, a panic), then reduce that
frame.  Returns the outcome together with the group stack the parser
retains. -/
def finishParse (stack : List AST) (gstack : List (List AST)) :
    ParseOutcome × List (List AST) :=
  let concat := reduceStack stack
  match gstack with
  | [] => (.ok concat, [])
  | g :: gs =>
    match g with
    | AST.Alternation alts :: grest =>
      (.ok (reduceStack (AST.Alternation (alts ++ [concat]) :: grest)), gs)
    | _ => (.panicked, gs)

/-- The main loop of ParserVM::parse (`while !self.is_eof()`), dispatching
on the current character; state is the remaining pattern, the head-first
working stack, and the head-first group stack.  Runs on fuel: every
iteration consumes at least one character, so fuel `|pattern| + 1` never
runs out. -/
def parseLoop : Nat → List Char → List AST → List (List AST) →
    ParseOutcome × List (List AST)
  | 0, _, _, gstack => (.fuelOut, gstack)
  | _ + 1, [], stack, gstack => finishParse stack gstack
  | fuel + 1, c :: rest, stack, gstack =>
    if c = '(' then
      -- start_group: a failing `next()` right after the parenthesis panics
      match rest with
      | [] => (.panicked, gstack)
      | _ => parseLoop fuel rest [] (stack :: gstack)
    else if c = ')' then
      -- end_group: `next()` first, then pop the group stack (empty is an error)
      match gstack with
      | [] => (.error, [])
      | g :: gs => parseLoop fuel rest (endGroupFrame stack g) gs
    else if c = '|' then
      -- parse_alternate: a failing `next()` right after the bar panics
      match rest with
      | [] => (.panicked, gstack)
      | _ =>
        match parseAlternate stack gstack with
        | (stack', gstack') => parseLoop fuel rest stack' gstack'
    else if c = '[' then
      match parseClass rest with
      | .ok (a, rest') => parseLoop fuel rest' (a :: stack) gstack
      | .error => (.error, gstack)
      | .panicked => (.panicked, gstack)
    else if c = '?' then
      match popWrap stack .ZeroOrOne with
      | .ok stack' => parseLoop fuel rest stack' gstack
      | _ => (.error, gstack)
    else if c = '*' then
      match popWrap stack .ZeroOrMore with
      | .ok stack' => parseLoop fuel rest stack' gstack
      | _ => (.error, gstack)
    else if c = '+' then
      match popWrap stack .OneOrMore with
      | .ok stack' => parseLoop fuel rest stack' gstack
      | _ => (.error, gstack)
    else if c = '{' then
      match parseRepetitionRange rest with
      | .ok (rep, rest') =>
        match popWrap stack rep with
        | .ok stack' => parseLoop fuel rest' stack' gstack
        | _ => (.error, gstack)
      | .error => (.error, gstack)
      | .panicked => (.panicked, gstack)
    else if c = '\\' then
      -- parse_primitive: escape sequences are `todo!()`, a panic
      (.panicked, gstack)
    else if c = '.' then parseLoop fuel rest (AST.Wildcard :: stack) gstack
    else if c = '^' then parseLoop fuel rest (AST.Anchor .LineStart :: stack) gstack
    else if c = '$' then parseLoop fuel rest (AST.Anchor .LineEnd :: stack) gstack
    else parseLoop fuel rest (AST.Literal c :: stack) gstack

/-- Parser from src/ast.rs: the state that persists across `parse` calls.
The source struct also holds `offset` (reset to 0 at the start of every
call and never read across calls) and `class_stack` (never touched), so
only `group_stack` is carried. -/
structure Parser where
  groupStack : List (List AST)

/-- Parser::new. -/
def Parser.new : Parser := ⟨[]⟩

/-- Parser::parse: run the parser loop on the pattern.  `reset` clears
only `offset`; the group stack persists from call to call. -/
def parseWith (p : Parser) (pattern : List Char) : ParseOutcome × Parser :=
  match parseLoop (pattern.length + 1) pattern [] p.groupStack with
  | (out, g) => (out, ⟨g⟩)

/-- Parsing with a freshly constructed Parser, as `main.rs::parse` does. -/
def parse (pattern : List Char) : ParseOutcome :=
  (parseWith Parser.new pattern).1

end ast

/-! ## src/regex.rs : the IR and lowering -/

namespace regex

/-- RepetitionType from src/regex.rs: the three canonical forms. -/
inductive RepetitionType where
  | Exact (n : Nat)
  | Lower (n : Nat)
  | Range (m n : Nat)
  deriving Repr, DecidableEq

/-- Regex from src/regex.rs (the IR).  `Literal` holds a `Box<[char]>` in
the source, modelled as `List Char`. -/
inductive Regex where
  | Empty
  | Literal (cs : List Char)
  | Class (negated : Bool) (items : List ast.ClassItem)
  | Assert (a : ast.AnchorType)
  | Repetition (rep : RepetitionType) (r : Regex)
  | Concat (rs : List Regex)
  | Alternation (rs : List Regex)
  deriving Repr

/-- The largest Unicode scalar value, Rust `char::MAX`. -/
def charMax : Char := Char.ofNat 0x10FFFF

mutual

/-- ParserVM::parse_node from src/regex.rs: lower one AST node to the IR.
The `pos` field of the enclosing `regex::Parser` is never read or
written, so lowering is a pure function. -/
def parse_node : ast.AST → Regex
  | .Empty => .Empty
  | .Wildcard => .Class false [ast.ClassItem.Range (Char.ofNat 0) charMax]
  | .Literal c => .Literal [c]
  | .Class negated items => .Class negated items
  | .Anchor a => .Assert a
  | .Repetition rt child =>
    let rep : RepetitionType :=
      match rt with
      | .ZeroOrOne => .Range 0 1
      | .ZeroOrMore => .Lower 0
      | .OneOrMore => .Lower 1
      | .Exact n => .Exact n
      | .Lower n => .Lower n
      | .Range n m => .Range n m
    .Repetition rep (parse_node child)
  | .Concat xs => .Concat (parseNodeList xs)
  | .Alternation xs => .Alternation (parseNodeList xs)
  | .Group child => parse_node child

/-- Element-wise lowering of `Concat`/`Alternation` children
(`ast.iter().map(|ast| self.parse_node(ast)).collect()`). -/
def parseNodeList : List ast.AST → List Regex
  | [] => []
  | a :: rest => parse_node a :: parseNodeList rest

end

end regex

/-! ## src/nfa.rs : NFA data model, Thompson-style builder, matcher -/

namespace nfa

/-- Transition from src/nfa.rs: target state and label (`None` is
epsilon, `Some (start, end)` a character range). -/
structure Transition where
  next : Nat
  input : Option (Char × Char)
  deriving Repr, DecidableEq

/-- State from src/nfa.rs: an ordered sequence of outgoing transitions. -/
structure State where
  transitions : List Transition
  deriving Repr, DecidableEq

/-- The `FINAL` StateID sentinel, `usize::MAX` on a 64-bit target. -/
def FINAL : Nat := 2 ^ 64 - 1

/-- NFA from src/nfa.rs. -/
structure NFA where
  states : List State
  initial : Nat
  accepting : Nat
  deriving Repr, DecidableEq

/-- NFA::new: no states, `initial = ZERO`, `accepting = FINAL`. -/
def NFA.new : NFA := ⟨[], 0, FINAL⟩

/-- NFA::add_state: append a fresh state, return it together with its
index. -/
def NFA.add_state (n : NFA) : NFA × Nat :=
  ({ n with states := n.states ++ [⟨[]⟩] }, n.states.length)

/-- The shared body of the three transition-adding methods of `NFA`:
push a transition onto `states[from].transitions`.  Rust indexing panics
when `from` is out of range; here `List.set` leaves the NFA unchanged in
that case (the builder only ever passes indices of existing states, see
the well-formedness theorem). -/
def NFA.push_transition (n : NFA) (fromSt toSt : Nat) (input : Option (Char × Char)) : NFA :=
  { n with
    states := n.states.set fromSt
      (State.mk ((n.states.getD fromSt ⟨[]⟩).transitions ++ [⟨toSt, input⟩])) }

/-- NFA::add_epsilon_transition. -/
def NFA.add_epsilon_transition (n : NFA) (fromSt toSt : Nat) : NFA :=
  n.push_transition fromSt toSt none

/-- NFA::add_char_transition. -/
def NFA.add_char_transition (n : NFA) (fromSt toSt : Nat) (c : Char) : NFA :=
  n.push_transition fromSt toSt (some (c, c))

/-- NFA::add_range_transition. -/
def NFA.add_range_transition (n : NFA) (fromSt toSt : Nat) (s e : Char) : NFA :=
  n.push_transition fromSt toSt (some (s, e))

/-- Component from src/nfa.rs: the (entry, exit) state pair a builder
call returns. -/
structure Component where
  initial : Nat
  accepting : Nat
  deriving Repr, DecidableEq

/-- NFABuilder::build_empty. -/
def build_empty (n : NFA) : NFA × Component :=
  match n.add_state with
  | (n, initial) =>
    match n.add_state with
    | (n, accepting) => (n.add_epsilon_transition initial accepting, ⟨initial, accepting⟩)

/-- NFABuilder::build_literal: uses `input[0]`; an empty literal slice
panics on the index (lowering always produces a singleton). -/
def build_literal (n : NFA) (input : List Char) : Option (NFA × Component) :=
  match input with
  | [] => none
  | c :: _ =>
    match n.add_state with
    | (n, initial) =>
      match n.add_state with
      | (n, accepting) => some (n.add_char_transition initial accepting c, ⟨initial, accepting⟩)

/-- The item loop of NFABuilder::build_class: one parallel transition
from entry to exit per item.  `Collating`, `Equivalence` and `Character`
items hit `unimplemented!()`, a panic.  The `negated` flag is ignored by
the source (its TODO: "Support negated classes"). -/
def addClassItems (initial accepting : Nat) : List ast.ClassItem → NFA → Option NFA
  | [], n => some n
  | .Ordinary c :: items, n =>
    addClassItems initial accepting items (n.add_char_transition initial accepting c)
  | .Range s e :: items, n =>
    addClassItems initial accepting items (n.add_range_transition initial accepting s e)
  | _ :: _, _ => none

/-- NFABuilder::build_class. -/
def build_class (n : NFA) (items : List ast.ClassItem) : Option (NFA × Component) :=
  match n.add_state with
  | (n, initial) =>
    match n.add_state with
    | (n, accepting) =>
      match addClassItems initial accepting items n with
      | none => none
      | some n => some (n, ⟨initial, accepting⟩)

/-- NFABuilder::build_assert: both anchors currently just add an epsilon
edge. -/
def build_assert (n : NFA) (_a : ast.AnchorType) : NFA × Component :=
  match n.add_state with
  | (n, initial) =>
    match n.add_state with
    | (n, accepting) => (n.add_epsilon_transition initial accepting, ⟨initial, accepting⟩)

/-- The mandatory-copies loop shared by the three arms of
NFABuilder::build_repetition (`for _ in 0..n { let comp = build_node(..);
add_epsilon(prev, comp.initial); prev = comp.accepting }`), abstracted
over the recursive builder call `f` on the child; returns the final
`prev`. -/
def repChain (f : NFA → Option (NFA × Component)) : Nat → NFA → Nat → Option (NFA × Nat)
  | 0, n, prev => some (n, prev)
  | k + 1, n, prev =>
    match f n with
    | none => none
    | some (n, comp) =>
      repChain f k (n.add_epsilon_transition prev comp.initial) comp.accepting

/-- The optional-copies loop of the `Range(min, max)` arm of
NFABuilder::build_repetition (`for _ in min..max { let comp = ..;
add_epsilon(prev, comp.initial); add_epsilon(comp.accepting, accepting);
prev = comp.accepting }`). -/
def optChain (f : NFA → Option (NFA × Component)) (accepting : Nat) :
    Nat → NFA → Nat → Option NFA
  | 0, n, _ => some n
  | k + 1, n, prev =>
    match f n with
    | none => none
    | some (n, comp) =>
      let n := n.add_epsilon_transition prev comp.initial
      let n := n.add_epsilon_transition comp.accepting accepting
      optChain f accepting k n comp.accepting

/-- NFABuilder::build_repetition, abstracted over the recursive builder
call `f` on the child regex. -/
def build_repetition (f : NFA → Option (NFA × Component))
    (rep : regex.RepetitionType) (n : NFA) : Option (NFA × Component) :=
  match n.add_state with
  | (n, initial) =>
    match n.add_state with
    | (n, accepting) =>
      match rep with
      | .Exact k =>
        match repChain f k n initial with
        | none => none
        | some (n, prev) => some (n.add_epsilon_transition prev accepting, ⟨initial, accepting⟩)
      | .Lower k =>
        match repChain f k n initial with
        | none => none
        | some (n, prev) =>
          match f n with
          | none => none
          | some (n, comp) =>
            let n := n.add_epsilon_transition prev comp.initial
            let n := n.add_epsilon_transition prev accepting
            let n := n.add_epsilon_transition comp.accepting comp.initial
            some (n, ⟨initial, accepting⟩)
      | .Range min max =>
        match repChain f min n initial with
        | none => none
        | some (n, prev) =>
          let n := n.add_epsilon_transition prev accepting
          match optChain f accepting (max - min) n prev with
          | none => none
          | some n => some (n, ⟨initial, accepting⟩)

mutual

/-- NFABuilder::build_node together with the element loops of
build_concat and build_alternation (mutual recursion over the IR). -/
def build_node : regex.Regex → NFA → Option (NFA × Component)
  | .Empty, n => some (build_empty n)
  | .Literal cs, n => build_literal n cs
  | .Class _negated items, n => build_class n items
  | .Assert a, n => some (build_assert n a)
  | .Repetition rep r, n => build_repetition (build_node r) rep n
  | .Concat rs, n =>
    match n.add_state with
    | (n, initial) =>
      match buildConcatList rs n initial with
      | none => none
      | some (n, prev) => some (n, ⟨initial, prev⟩)
  | .Alternation rs, n =>
    match n.add_state with
    | (n, initial) =>
      match n.add_state with
      | (n, accepting) =>
        match buildAlternationList rs initial accepting n with
        | none => none
        | some n => some (n, ⟨initial, accepting⟩)

/-- The element loop of NFABuilder::build_concat: chain each element's
component via epsilon edges, threading `prev`. -/
def buildConcatList : List regex.Regex → NFA → Nat → Option (NFA × Nat)
  | [], n, prev => some (n, prev)
  | r :: rs, n, prev =>
    match build_node r n with
    | none => none
    | some (n, comp) =>
      buildConcatList rs (n.add_epsilon_transition prev comp.initial) comp.accepting

/-- The element loop of NFABuilder::build_alternation: epsilon edges from
the shared entry to each element's entry and from each element's exit to
the shared exit. -/
def buildAlternationList : List regex.Regex → Nat → Nat → NFA → Option NFA
  | [], _, _, n => some n
  | r :: rs, initial, accepting, n =>
    match build_node r n with
    | none => none
    | some (n, comp) =>
      let n := n.add_epsilon_transition initial comp.initial
      let n := n.add_epsilon_transition comp.accepting accepting
      buildAlternationList rs initial accepting n

end

/-- NFA::from_regex: run the builder on `NFA::new` and record the top
component's entry/exit as the automaton's initial/accepting states.
`none` means the builder panicked (unsupported class item or an empty
literal slice). -/
def NFA.from_regex (r : regex.Regex) : Option NFA :=
  match build_node r NFA.new with
  | none => none
  | some (n, comp) => some { n with initial := comp.initial, accepting := comp.accepting }

/-- The transition scan of NFAVM::step: take the first transition that is
epsilon or whose range contains the current character; return its target.
-/
def stepTransitions : List Transition → Char → Option Nat
  | [], _ => none
  | t :: ts, c =>
    match t.input with
    | none => some t.next
    | some (s, e) => if s ≤ c ∧ c ≤ e then some t.next else stepTransitions ts c

/-- NFAVM::run: the single-active-state stepper.  While input remains,
take the first applicable transition of the current state and advance the
input position by one (also for an epsilon transition); fail if no
transition applies; succeed as soon as the input is exhausted (the
accepting state is never consulted).  Rust indexes `states[state]`
(a panic when out of range); `getD` yields no transitions there, hence
failure. -/
def run (N : NFA) : Nat → List Char → Bool
  | _, [] => true
  | s, c :: rest =>
    match stepTransitions (N.states.getD s ⟨[]⟩).transitions c with
    | none => false
    | some s' => run N s' rest

/-- Matching an input against an NFA: NFAVM::new starts at `nfa.initial`
with position 0, then NFAVM::run. -/
def NFA.matches (N : NFA) (input : List Char) : Bool :=
  run N N.initial input

end nfa

/-! ## The pipeline (main.rs composes parse, lowering and construction) -/

/-- main.rs::parse followed by NFA::from_regex: compile a pattern all the
way to an NFA.  `none` when the parser returns an error or any stage
panics. -/
def compilePattern (pattern : List Char) : Option nfa.NFA :=
  match ast.parse pattern with
  | .ok a => nfa.NFA.from_regex (regex.parse_node a)
  | _ => none

/-- Compile a pattern and run the source's matcher on an input. -/
def matchPattern (pattern input : List Char) : Option Bool :=
  (compilePattern pattern).map (fun n => n.matches input)

/-! ## Specification-side notions

The following definitions render concepts the spec uses to state
properties of the program (languages of paths, the set-based matcher,
automaton well-formedness).  They are stated over the embedded NFA type
and compared with the source functions in the theorems below. -/

namespace nfa

/-- The epsilon successors of one state: targets of its transitions whose
label is `none`. -/
def epsSuccs (N : NFA) (s : Nat) : List Nat :=
  (N.states.getD s ⟨[]⟩).transitions.filterMap
    (fun t => match t.input with | none => some t.next | some _ => none)

/-- One expansion round of the epsilon-closure computation: the set
together with all one-epsilon-step successors. -/
def epsExpand (N : NFA) (S : List Nat) : List Nat :=
  (S ++ S.flatMap (epsSuccs N)).dedup

/-- Modelled from the spec, GLOSSARY and section 4.4: the epsilon-closure
of a set of states, reached as a fixed point; expanding once per state of
the automaton suffices because a shortest epsilon path visits each state
at most once. -/
def epsClosure (N : NFA) (S : List Nat) : List Nat :=
  (epsExpand N)^[N.states.length] S

/-- The states reachable from the set `S` by a single labeled transition
whose range contains `c`. -/
def charStep (N : NFA) (S : List Nat) (c : Char) : List Nat :=
  S.flatMap (fun s => (N.states.getD s ⟨[]⟩).transitions.filterMap
    (fun t => match t.input with
      | some (a, b) => if a ≤ c ∧ c ≤ b then some t.next else none
      | none => none))

/-- Modelled from the spec, section 4.4 steps 2-3: consume each symbol by
a labeled step followed by epsilon closure, failing as soon as the active
set is empty; at the end of input succeed iff the accepting state is in
the active set.  (The source's `NFAVM::run` implements a single-state
stepper instead; the claims compare the two.) -/
def specRun (N : NFA) : List Nat → List Char → Bool
  | S, [] => S.contains N.accepting
  | S, c :: rest =>
    match epsClosure N (charStep N S c) with
    | [] => false
    | S' => specRun N S' rest

/-- Modelled from the spec, section 4.4 step 1: start from the
epsilon-closure of the initial state. -/
def specMatches (N : NFA) (input : List Char) : Bool :=
  specRun N (epsClosure N [N.initial]) input

/-- A path through the NFA from a state to a state consuming a word:
either empty, or an epsilon transition consuming nothing, or a labeled
transition whose range contains the consumed character.  This renders the
spec's "every path from entry to exit consumes ..." (section 4.3). -/
inductive PathTo (N : NFA) : Nat → List Char → Nat → Prop where
  | refl (s : Nat) : PathTo N s [] s
  | eps {s t u : Nat} {w : List Char} :
      Transition.mk t none ∈ (N.states.getD s ⟨[]⟩).transitions →
      PathTo N t w u → PathTo N s w u
  | char {s t u : Nat} {a b c : Char} {w : List Char} :
      Transition.mk t (some (a, b)) ∈ (N.states.getD s ⟨[]⟩).transitions →
      a ≤ c → c ≤ b → PathTo N t w u → PathTo N s (c :: w) u

/-- Every transition of every state targets an existing state. -/
def StatesValid (N : NFA) : Prop :=
  ∀ s ∈ N.states, ∀ t ∈ s.transitions, t.next < N.states.length

/-- Well-formedness for simulation (claim C10): the initial state, the
accepting state and every transition target are valid indices into the
states array. -/
def WF (N : NFA) : Prop :=
  N.initial < N.states.length ∧ N.accepting < N.states.length ∧ StatesValid N

end nfa

/-- The characters the parser's main loop or `parse_primitive` treats
specially; every other character becomes `AST::Literal`. -/
def isMeta (c : Char) : Bool :=
  c ∈ ['(', ')', '|', '[', '?', '*', '+', '{', '\\', '.', '^', '$']

/-- The AST the spec says a metacharacter-free string parses to: `Empty`
for the empty string, a lone `Literal` for one character, a `Concat` of
`Literal`s in order otherwise. -/
def literalAST (s : List Char) : ast.AST :=
  match s with
  | [] => .Empty
  | [c] => .Literal c
  | _ => .Concat (s.map .Literal)

/-- The NFA the builder produces for the IR node
`Repetition(Lower(0), Literal 'a')` (the lowering of pattern `a*`),
spelled out: state 3, the exit of the loop copy, has an epsilon edge back
to the copy's entry 2 but none to the component exit 1. -/
def lowerLoopNFA : nfa.NFA :=
  ⟨[⟨[⟨2, none⟩, ⟨1, none⟩]⟩, ⟨[]⟩, ⟨[⟨3, some ('a', 'a')⟩]⟩, ⟨[⟨2, none⟩]⟩], 0, 1⟩

end AGrep

/-! ## Sanity checks mirroring the unit tests of src/ast.rs -/

namespace AGrep

example : ast.parse "a".toList = .ok (.Literal 'a') := rfl
example : ast.parse "ab".toList = .ok (.Concat [.Literal 'a', .Literal 'b']) := rfl
example : ast.parse "a+".toList = .ok (.Repetition .OneOrMore (.Literal 'a')) := rfl
example : ast.parse "a{1,}b".toList =
    .ok (.Concat [.Repetition (.Lower 1) (.Literal 'a'), .Literal 'b']) := rfl
example : ast.parse "lots{   4 ,  8      }of ms".toList =
    .ok (.Concat [.Literal 'l', .Literal 'o', .Literal 't',
      .Repetition (.Range 4 8) (.Literal 's'),
      .Literal 'o', .Literal 'f', .Literal ' ', .Literal 'm', .Literal 's']) := rfl
example : ast.parse "a{3}*".toList =
    .ok (.Repetition .ZeroOrMore (.Repetition (.Exact 3) (.Literal 'a'))) := rfl
example : ast.parse "[abc]".toList =
    .ok (.Class false [.Ordinary 'a', .Ordinary 'b', .Ordinary 'c']) := rfl
example : ast.parse "[A-z]".toList = .ok (.Class false [.Range 'A' 'z']) := rfl
example : ast.parse "[^a-z0-9 ]".toList =
    .ok (.Class true [.Range 'a' 'z', .Range '0' '9', .Ordinary ' ']) := rfl
example : ast.parse "a|b".toList =
    .ok (.Alternation [.Literal 'a', .Literal 'b']) := rfl

example : compilePattern "a{1,2}".toList = some
    ⟨[⟨[⟨2, none⟩]⟩, ⟨[]⟩, ⟨[⟨3, some ('a', 'a')⟩]⟩, ⟨[⟨1, none⟩, ⟨4, none⟩]⟩,
      ⟨[⟨5, some ('a', 'a')⟩]⟩, ⟨[⟨1, none⟩]⟩], 0, 1⟩ := rfl

example : nfa.NFA.from_regex (.Repetition (.Lower 0) (.Literal ['a'])) =
    some lowerLoopNFA := rfl

/-! ## Claim theorems -/

/-- C1: the source matcher is not the claimed set-based epsilon-closure
simulation.  On the NFA the pipeline produces for pattern `a` and the
empty input, `NFAVM::run` returns true (it succeeds whenever the input is
exhausted, never consulting the accepting state), while the claimed
algorithm returns false (the accepting state is not in the
epsilon-closure of the initial state). -/
theorem matcher_is_not_closure_simulation :
    (compilePattern "a".toList).map (fun n => n.matches []) = some true ∧
    (compilePattern "a".toList).map (fun n => nfa.specMatches n []) = some false :=
  ⟨rfl, rfl⟩

/-- C2: for pattern `a{1,2}` the full pipeline returns true on all four
inputs `""`, `"a"`, `"aa"`, `"aaa"`, contradicting the claimed false on
`""` and `"aaa"`; the spec-modelled epsilon-closure matcher on the very
same compiled NFA returns the claimed false/true/true/false, so the
automaton is right and the matcher is at fault. -/
theorem pipeline_a12_verdicts :
    matchPattern "a{1,2}".toList "".toList = some true ∧
    matchPattern "a{1,2}".toList "a".toList = some true ∧
    matchPattern "a{1,2}".toList "aa".toList = some true ∧
    matchPattern "a{1,2}".toList "aaa".toList = some true ∧
    (compilePattern "a{1,2}".toList).map (fun n => nfa.specMatches n "".toList) = some false ∧
    (compilePattern "a{1,2}".toList).map (fun n => nfa.specMatches n "a".toList) = some true ∧
    (compilePattern "a{1,2}".toList).map (fun n => nfa.specMatches n "aa".toList) = some true ∧
    (compilePattern "a{1,2}".toList).map (fun n => nfa.specMatches n "aaa".toList) = some false :=
  ⟨rfl, rfl, rfl, rfl, rfl, rfl, rfl, rfl⟩

/-- Any transition obtained by indexing a state of `lowerLoopNFA` is one
of its four transitions, owned by the state that holds it. -/
lemma lowerLoopNFA_trans_cases {s : Nat} {t : nfa.Transition}
    (h : t ∈ (lowerLoopNFA.states.getD s ⟨[]⟩).transitions) :
    (s = 0 ∧ (t = ⟨2, none⟩ ∨ t = ⟨1, none⟩)) ∨
    (s = 2 ∧ t = ⟨3, some ('a', 'a')⟩) ∨ (s = 3 ∧ t = ⟨2, none⟩) := by
  rcases Nat.lt_or_ge s 4 with h4 | h4
  · interval_cases s <;> simp_all [lowerLoopNFA]
  · rw [List.getD_eq_default _ _ (by simpa [lowerLoopNFA] using h4)] at h
    simp at h

/-- In `lowerLoopNFA` every path ending at the accepting state 1 starts
outside the loop copy (states 2 and 3) and consumes nothing: the exit of
the loop copy has no edge back to the component exit. -/
lemma lowerLoopNFA_no_word_to_accepting {s u : Nat} {w : List Char}
    (h : nfa.PathTo lowerLoopNFA s w u) : u = 1 → s ≠ 2 ∧ s ≠ 3 ∧ w = [] := by
  induction h with
  | refl s => rintro rfl; exact ⟨by decide, by decide, rfl⟩
  | eps hmem hpath ih =>
    intro h1
    obtain ⟨ht2, ht3, hw⟩ := ih h1
    rcases lowerLoopNFA_trans_cases hmem with ⟨hs, ht | ht⟩ | ⟨hs, ht⟩ | ⟨hs, ht⟩
    · exact absurd (by injection ht) ht2
    · subst hs; exact ⟨by decide, by decide, hw⟩
    · exact absurd ht (by simp)
    · exact absurd (by injection ht) ht2
  | char hmem hle1 hle2 hpath ih =>
    intro h1
    obtain ⟨ht2, ht3, hw⟩ := ih h1
    rcases lowerLoopNFA_trans_cases hmem with ⟨hs, ht | ht⟩ | ⟨hs, ht⟩ | ⟨hs, ht⟩
    · exact absurd ht (by simp)
    · exact absurd ht (by simp)
    · exact absurd (by injection ht) ht3
    · exact absurd ht (by simp)

/-- C3: the builder's component for `Repetition(Lower(0), Literal 'a')`
(the lowering of pattern `a*`) violates the claimed reachability: the
zero-repetition path from entry to exit exists, but no path from entry to
exit consumes one repetition `"a"` (nor any k ≥ 1), because the loop
copy's exit has an epsilon edge back to its own entry but none to the
component exit. -/
theorem lower_repetition_exit_unreachable :
    nfa.NFA.from_regex (.Repetition (.Lower 0) (.Literal ['a'])) = some lowerLoopNFA ∧
    nfa.PathTo lowerLoopNFA lowerLoopNFA.initial [] lowerLoopNFA.accepting ∧
    ¬ nfa.PathTo lowerLoopNFA lowerLoopNFA.initial ['a'] lowerLoopNFA.accepting := by
  refine ⟨rfl, nfa.PathTo.eps (t := 1) (by decide) (nfa.PathTo.refl 1), fun h => ?_⟩
  obtain ⟨-, -, hw⟩ := lowerLoopNFA_no_word_to_accepting h rfl
  exact List.cons_ne_nil 'a' [] hw

/-- C4: the parser does not reject every malformed pattern with a
returned error: `(` panics in `start_group`, `(a` hits the
`unreachable!()` in `finish_parse`, and `(a|b` — an unclosed explicit
group — is accepted and returns an AST; the claim's other malformed
inputs `a{3,1}`, `[z-a]`, `*a` are indeed returned errors. -/
theorem malformed_patterns_outcomes :
    ast.parse "(".toList = .panicked ∧
    ast.parse "(a".toList = .panicked ∧
    ast.parse "(a|b".toList = .ok (.Alternation [.Literal 'a', .Literal 'b']) ∧
    ast.parse "a{3,1}".toList = .error ∧
    ast.parse "[z-a]".toList = .error ∧
    ast.parse "*a".toList = .error :=
  ⟨rfl, rfl, rfl, rfl, rfl, rfl⟩

/-- C5: the outcome of `parse` does not depend only on the pattern text.
`Parser::reset` restores only `offset`, not `group_stack`, so a failed
`parse("(*")` leaves a group frame behind and a subsequent `parse(")")`
on the same parser returns `Ok(Group(Empty))`, while a fresh parser
returns an error on `")"`. -/
theorem parser_state_leaks_across_calls :
    (ast.parseWith ast.Parser.new "(*".toList).1 = .error ∧
    (ast.parseWith (ast.parseWith ast.Parser.new "(*".toList).2 ")".toList).1 =
      .ok (.Group .Empty) ∧
    ast.parse ")".toList = .error :=
  ⟨rfl, rfl, rfl⟩

/-- C6: lowering canonicalizes the six AST repetition kinds to the three
IR forms exactly as claimed, over the lowered child. -/
theorem repetition_canonicalization (c : ast.AST) (n m : Nat) :
    regex.parse_node (.Repetition .ZeroOrOne c) =
      .Repetition (.Range 0 1) (regex.parse_node c) ∧
    regex.parse_node (.Repetition .ZeroOrMore c) =
      .Repetition (.Lower 0) (regex.parse_node c) ∧
    regex.parse_node (.Repetition .OneOrMore c) =
      .Repetition (.Lower 1) (regex.parse_node c) ∧
    regex.parse_node (.Repetition (.Exact n) c) =
      .Repetition (.Exact n) (regex.parse_node c) ∧
    regex.parse_node (.Repetition (.Lower n) c) =
      .Repetition (.Lower n) (regex.parse_node c) ∧
    regex.parse_node (.Repetition (.Range m n) c) =
      .Repetition (.Range m n) (regex.parse_node c) :=
  ⟨rfl, rfl, rfl, rfl, rfl, rfl⟩

/-- On a metacharacter-free suffix the parser loop just pushes one
`Literal` per character and finishes. -/
lemma parseLoop_literals (s : List Char) (h : ∀ c ∈ s, isMeta c = false) :
    ∀ (fuel : Nat) (acc : List ast.AST), s.length < fuel →
      ast.parseLoop fuel s acc [] =
        ast.finishParse ((s.map ast.AST.Literal).reverse ++ acc) [] := by
  induction s with
  | nil =>
    intro fuel acc hf
    obtain ⟨f, rfl⟩ : ∃ f, fuel = f + 1 := ⟨fuel - 1, by omega⟩
    simp [ast.parseLoop]
  | cons c rest ih =>
    intro fuel acc hf
    have hc : isMeta c = false := h c (List.mem_cons_self c rest)
    have hrest : ∀ x ∈ rest, isMeta x = false := fun x hx => h x (List.mem_cons_of_mem c hx)
    obtain ⟨f, rfl⟩ : ∃ f, fuel = f + 1 := ⟨fuel - 1, by omega⟩
    simp only [isMeta, List.mem_cons, List.not_mem_nil, or_false,
      decide_eq_false_iff_not, not_or] at hc
    obtain ⟨h1, h2, h3, h4, h5, h6, h7, h8, h9, h10, h11, h12⟩ := hc
    simp only [ast.parseLoop, if_neg h1, if_neg h2, if_neg h3, if_neg h4, if_neg h5,
      if_neg h6, if_neg h7, if_neg h8, if_neg h9, if_neg h10, if_neg h11, if_neg h12]
    rw [ih hrest f (ast.AST.Literal c :: acc) (by simpa using Nat.lt_of_succ_lt_succ hf)]
    simp [List.append_assoc]

/-- Reducing a stack of two or more nodes produces their `Concat` in push
order. -/
lemma reduceStack_of_two_le : ∀ (l : List ast.AST), 2 ≤ l.length →
    ast.reduceStack l = .Concat l.reverse
  | _ :: _ :: _, _ => rfl

/-- Reducing the pushed-literals stack yields exactly the AST the claim
describes. -/
lemma reduceStack_literals (s : List Char) :
    ast.reduceStack ((s.map ast.AST.Literal).reverse) = literalAST s := by
  match s with
  | [] => rfl
  | [c] => rfl
  | a :: b :: t =>
    rw [reduceStack_of_two_le _ (by simp)]
    simp [literalAST]

/-- C7: parsing a literal string with no metacharacters succeeds and
yields the concatenation of its scalar values as `Literal` nodes (one
`Literal` for a single character, `Empty` for the empty string). -/
theorem literal_strings_parse (s : List Char) (h : ∀ c ∈ s, isMeta c = false) :
    ast.parse s = .ok (literalAST s) := by
  have h1 := parseLoop_literals s h (s.length + 1) [] (by omega)
  simp only [ast.parse, ast.parseWith, ast.Parser.new]
  rw [h1]
  simp [ast.finishParse, reduceStack_literals]

/-- Witness for C7 at the concrete literal string "ab". -/
theorem literal_strings_parse_witness :
    (∀ c ∈ "ab".toList, isMeta c = false) ∧
      ast.parse "ab".toList = .ok (literalAST "ab".toList) :=
  ⟨by decide, literal_strings_parse "ab".toList (by decide)⟩

/-- C8: a bounded-repetition count one past the 32-bit unsigned maximum
is not rejected with a returned error: `parse_int`'s unchecked `u32`
accumulation overflows, which panics (the source's own comment reads
"TODO: check for overflow -> currently panics"; release builds would wrap
instead — neither is the claimed returned error). -/
theorem repetition_count_overflow_panics :
    ast.parse "a{4294967296}".toList = .panicked := rfl

/-- C9: a parenthesized group is transparent at lowering time — lowering
`Group(a)` is exactly lowering `a`. -/
theorem group_lowering_transparent (a : ast.AST) :
    regex.parse_node (.Group a) = regex.parse_node a := rfl

namespace nfa

/-- Pushing a transition never changes the number of states. -/
lemma length_push_transition (N : NFA) (f t : Nat) (inp : Option (Char × Char)) :
    (N.push_transition f t inp).states.length = N.states.length := by
  simp [NFA.push_transition]

/-- Specialization of `length_push_transition` to the epsilon wrapper. -/
lemma length_add_epsilon_transition (N : nfa.NFA) (f t : Nat) :
    (N.add_epsilon_transition f t).states.length = N.states.length :=
  length_push_transition ..

/-- Specialization of `length_push_transition` to the char wrapper. -/
lemma length_add_char_transition (N : nfa.NFA) (f t : Nat) (c : Char) :
    (N.add_char_transition f t c).states.length = N.states.length :=
  length_push_transition ..

/-- Specialization of `length_push_transition` to the range wrapper. -/
lemma length_add_range_transition (N : nfa.NFA) (f t : Nat) (s e : Char) :
    (N.add_range_transition f t s e).states.length = N.states.length :=
  length_push_transition ..

/-- Pushing a transition whose target exists preserves target validity. -/
lemma statesValid_push_transition {N : NFA} {f t : Nat} {inp : Option (Char × Char)}
    (hN : StatesValid N) (ht : t < N.states.length) :
    StatesValid (N.push_transition f t inp) := by
  intro s hs tr htr
  rw [length_push_transition]
  rcases List.mem_or_eq_of_mem_set hs with hs | rfl
  · exact hN s hs tr htr
  · simp only [List.mem_append, List.mem_singleton] at htr
    rcases htr with htr | rfl
    · by_cases hf : f < N.states.length
      · rw [List.getD_eq_getElem _ _ hf] at htr
        exact hN _ (List.getElem_mem hf) tr htr
      · rw [List.getD_eq_default _ _ (Nat.le_of_not_lt hf)] at htr
        simp at htr
    · exact ht

/-- Appending a fresh state preserves target validity. -/
lemma statesValid_add_state {N : NFA} (hN : StatesValid N) :
    StatesValid N.add_state.1 := by
  intro s hs tr htr
  simp only [NFA.add_state, List.mem_append, List.mem_singleton, List.length_append,
    List.length_singleton] at hs ⊢
  rcases hs with hs | rfl
  · exact Nat.lt_succ_of_lt (hN s hs tr htr)
  · simp at htr

/-- A builder step is valid when, from any automaton with valid targets,
it only appends states, keeps targets valid, and returns a component
whose entry and exit are existing states. -/
def BuildsValid (f : NFA → Option (NFA × Component)) : Prop :=
  ∀ N N' c, f N = some (N', c) → StatesValid N →
    StatesValid N' ∧ N.states.length ≤ N'.states.length ∧
    c.initial < N'.states.length ∧ c.accepting < N'.states.length

/-- The mandatory-copies chain of build_repetition preserves validity and
hands back an existing state. -/
lemma repChain_valid {f : NFA → Option (NFA × Component)} (hf : BuildsValid f) :
    ∀ (k : Nat) (N : NFA) (prev : Nat) (N' : NFA) (last : Nat),
      repChain f k N prev = some (N', last) → StatesValid N →
      prev < N.states.length →
      StatesValid N' ∧ N.states.length ≤ N'.states.length ∧ last < N'.states.length := by
  intro k
  induction k with
  | zero =>
    intro N prev N' last h hv hp
    simp only [repChain, Option.some.injEq, Prod.mk.injEq] at h
    obtain ⟨rfl, rfl⟩ := h
    exact ⟨hv, Nat.le_refl _, hp⟩
  | succ k ih =>
    intro N prev N' last h hv hp
    simp only [repChain] at h
    cases hfe : f N with
    | none => rw [hfe] at h; cases h
    | some nc =>
      obtain ⟨N1, comp⟩ := nc
      rw [hfe] at h
      obtain ⟨hv1, hlen1, hci, hca⟩ := hf N N1 comp hfe hv
      have hv2 : StatesValid (N1.add_epsilon_transition prev comp.initial) :=
        statesValid_push_transition hv1 hci
      have hlen2 : (N1.add_epsilon_transition prev comp.initial).states.length =
          N1.states.length := length_push_transition ..
      obtain ⟨hv', hlen', hlast⟩ := ih _ comp.accepting N' last h hv2 (by omega)
      exact ⟨hv', by omega, hlast⟩

/-- The optional-copies chain of the `Range` arm preserves validity. -/
lemma optChain_valid {f : NFA → Option (NFA × Component)} (hf : BuildsValid f)
    (accepting : Nat) :
    ∀ (k : Nat) (N : NFA) (prev : Nat) (N' : NFA),
      optChain f accepting k N prev = some N' → StatesValid N →
      accepting < N.states.length →
      StatesValid N' ∧ N.states.length ≤ N'.states.length := by
  intro k
  induction k with
  | zero =>
    intro N prev N' h hv _
    simp only [optChain, Option.some.injEq] at h
    subst h
    exact ⟨hv, Nat.le_refl _⟩
  | succ k ih =>
    intro N prev N' h hv hacc
    simp only [optChain] at h
    cases hfe : f N with
    | none => rw [hfe] at h; cases h
    | some nc =>
      obtain ⟨N1, comp⟩ := nc
      rw [hfe] at h
      obtain ⟨hv1, hlen1, hci, hca⟩ := hf N N1 comp hfe hv
      have hv2 : StatesValid (N1.add_epsilon_transition prev comp.initial) :=
        statesValid_push_transition hv1 hci
      have hv3 : StatesValid ((N1.add_epsilon_transition prev
          comp.initial).add_epsilon_transition comp.accepting accepting) :=
        statesValid_push_transition hv2 (by rw [length_add_epsilon_transition]; omega)
      obtain ⟨hv', hlen'⟩ := ih _ comp.accepting N' h hv3
        (by rw [length_add_epsilon_transition, length_add_epsilon_transition]; omega)
      refine ⟨hv', ?_⟩
      rw [length_add_epsilon_transition, length_add_epsilon_transition] at hlen'
      omega

/-- The item loop of build_class adds no states and keeps targets valid.
-/
lemma addClassItems_valid (initial accepting : Nat) :
    ∀ (items : List ast.ClassItem) (N N' : NFA),
      addClassItems initial accepting items N = some N' → StatesValid N →
      accepting < N.states.length →
      StatesValid N' ∧ N'.states.length = N.states.length := by
  intro items
  induction items with
  | nil =>
    intro N N' h hv _
    simp only [addClassItems, Option.some.injEq] at h
    subst h
    exact ⟨hv, rfl⟩
  | cons item items ih =>
    intro N N' h hv hacc
    cases item with
    | Ordinary c =>
      simp only [addClassItems] at h
      obtain ⟨hv', hlen'⟩ := ih _ N' h (statesValid_push_transition hv hacc)
        (by rw [length_add_char_transition]; omega)
      rw [length_add_char_transition] at hlen'
      exact ⟨hv', hlen'⟩
    | Range s e =>
      simp only [addClassItems] at h
      obtain ⟨hv', hlen'⟩ := ih _ N' h (statesValid_push_transition hv hacc)
        (by rw [length_add_range_transition]; omega)
      rw [length_add_range_transition] at hlen'
      exact ⟨hv', hlen'⟩
    | Collating => simp [addClassItems] at h
    | Equivalence c => simp [addClassItems] at h
    | Character n => simp [addClassItems] at h

/-- Adding a fresh state increments the state count. -/
lemma length_add_state (N : NFA) :
    N.add_state.1.states.length = N.states.length + 1 := by
  simp [NFA.add_state]

/-- The index a fresh state is returned under. -/
lemma add_state_snd (N : NFA) : N.add_state.2 = N.states.length := rfl

/-- build_repetition is a valid builder step whenever the child builder
is. -/
lemma build_repetition_valid {f : NFA → Option (NFA × Component)}
    (hf : BuildsValid f) (rep : regex.RepetitionType) :
    BuildsValid (build_repetition f rep) := by
  intro N N' c h hv
  have hv2 : StatesValid N.add_state.1.add_state.1 :=
    statesValid_add_state (statesValid_add_state hv)
  have hl2 : N.add_state.1.add_state.1.states.length = N.states.length + 2 := by
    rw [length_add_state, length_add_state]
  have hi : N.add_state.2 = N.states.length := rfl
  have hj : N.add_state.1.add_state.2 = N.states.length + 1 := by
    rw [add_state_snd, length_add_state]
  cases rep with
  | Exact k =>
    have he : build_repetition f (.Exact k) N =
        (match repChain f k N.add_state.1.add_state.1 N.add_state.2 with
          | none => none
          | some (n, prev) =>
            some (n.add_epsilon_transition prev N.add_state.1.add_state.2,
              ⟨N.add_state.2, N.add_state.1.add_state.2⟩)) := rfl
    rw [he] at h
    cases hrc : repChain f k N.add_state.1.add_state.1 N.add_state.2 with
    | none => rw [hrc] at h; cases h
    | some np =>
      obtain ⟨N3, prev⟩ := np
      rw [hrc] at h
      simp only [Option.some.injEq] at h
      obtain ⟨rfl, rfl⟩ := Prod.mk.injEq .. ▸ h
      have hilt : N.add_state.2 < N.add_state.1.add_state.1.states.length := by omega
      obtain ⟨hv3, hlen3, hprev⟩ := repChain_valid hf k _ _ _ _ hrc hv2 hilt
      have hjlt : N.add_state.1.add_state.2 < N3.states.length := by omega
      refine ⟨statesValid_push_transition hv3 hjlt, ?_, ?_, ?_⟩ <;>
        dsimp only <;> rw [length_add_epsilon_transition] <;> omega
  | Lower k =>
    have he : build_repetition f (.Lower k) N =
        (match repChain f k N.add_state.1.add_state.1 N.add_state.2 with
          | none => none
          | some (n, prev) =>
            match f n with
            | none => none
            | some (n, comp) =>
              some (((n.add_epsilon_transition prev comp.initial).add_epsilon_transition
                  prev N.add_state.1.add_state.2).add_epsilon_transition
                  comp.accepting comp.initial,
                ⟨N.add_state.2, N.add_state.1.add_state.2⟩)) := rfl
    rw [he] at h
    cases hrc : repChain f k N.add_state.1.add_state.1 N.add_state.2 with
    | none => rw [hrc] at h; cases h
    | some np =>
      obtain ⟨N3, prev⟩ := np
      rw [hrc] at h
      dsimp only at h
      have hilt : N.add_state.2 < N.add_state.1.add_state.1.states.length := by omega
      obtain ⟨hv3, hlen3, hprev⟩ := repChain_valid hf k _ _ _ _ hrc hv2 hilt
      cases hfe : f N3 with
      | none => rw [hfe] at h; cases h
      | some nc =>
        obtain ⟨N4, comp⟩ := nc
        rw [hfe] at h
        simp only [Option.some.injEq] at h
        obtain ⟨rfl, rfl⟩ := Prod.mk.injEq .. ▸ h
        obtain ⟨hv4, hlen4, hci, hca⟩ := hf N3 N4 comp hfe hv3
        have hva : StatesValid (N4.add_epsilon_transition prev comp.initial) :=
          statesValid_push_transition hv4 hci
        have hvb : StatesValid ((N4.add_epsilon_transition prev
            comp.initial).add_epsilon_transition prev N.add_state.1.add_state.2) :=
          statesValid_push_transition hva (by rw [length_add_epsilon_transition]; omega)
        refine ⟨statesValid_push_transition hvb ?_, ?_, ?_, ?_⟩ <;>
          dsimp only <;> simp only [length_add_epsilon_transition] <;> omega
  | Range mn mx =>
    have he : build_repetition f (.Range mn mx) N =
        (match repChain f mn N.add_state.1.add_state.1 N.add_state.2 with
          | none => none
          | some (n, prev) =>
            match optChain f N.add_state.1.add_state.2 (mx - mn)
                (n.add_epsilon_transition prev N.add_state.1.add_state.2) prev with
            | none => none
            | some n =>
              some (n, ⟨N.add_state.2, N.add_state.1.add_state.2⟩)) := rfl
    rw [he] at h
    cases hrc : repChain f mn N.add_state.1.add_state.1 N.add_state.2 with
    | none => rw [hrc] at h; cases h
    | some np =>
      obtain ⟨N3, prev⟩ := np
      rw [hrc] at h
      dsimp only at h
      have hilt : N.add_state.2 < N.add_state.1.add_state.1.states.length := by omega
      obtain ⟨hv3, hlen3, hprev⟩ := repChain_valid hf mn _ _ _ _ hrc hv2 hilt
      have hjlt : N.add_state.1.add_state.2 < N3.states.length := by omega
      have hva : StatesValid (N3.add_epsilon_transition prev N.add_state.1.add_state.2) :=
        statesValid_push_transition hv3 hjlt
      cases hoc : optChain f N.add_state.1.add_state.2 (mx - mn)
          (N3.add_epsilon_transition prev N.add_state.1.add_state.2) prev with
      | none => rw [hoc] at h; cases h
      | some N5 =>
        rw [hoc] at h
        simp only [Option.some.injEq] at h
        obtain ⟨rfl, rfl⟩ := Prod.mk.injEq .. ▸ h
        obtain ⟨hv5, hlen5⟩ := optChain_valid hf _ _ _ _ _ hoc hva
          (by rw [length_add_epsilon_transition]; omega)
        rw [length_add_epsilon_transition] at hlen5
        exact ⟨hv5, by omega, by dsimp only; omega, by dsimp only; omega⟩

mutual

/-- build_node is a valid builder step for every IR node: it only appends
states, keeps every transition target in range, and returns a component
whose entry and exit exist. -/
theorem build_node_valid : ∀ (r : regex.Regex), BuildsValid (build_node r)
  | .Empty => by
    intro N N' c h hv
    have he : build_node .Empty N =
        some (N.add_state.1.add_state.1.add_epsilon_transition N.add_state.2
            N.add_state.1.add_state.2,
          ⟨N.add_state.2, N.add_state.1.add_state.2⟩) := rfl
    rw [he] at h
    simp only [Option.some.injEq] at h
    obtain ⟨rfl, rfl⟩ := Prod.mk.injEq .. ▸ h
    have hv2 := statesValid_add_state (statesValid_add_state hv)
    have hl2 : N.add_state.1.add_state.1.states.length = N.states.length + 2 := by
      rw [length_add_state, length_add_state]
    have hj : N.add_state.1.add_state.2 = N.states.length + 1 := by
      rw [add_state_snd, length_add_state]
    have hjlt : N.add_state.1.add_state.2 < N.add_state.1.add_state.1.states.length := by
      omega
    refine ⟨statesValid_push_transition hv2 hjlt, ?_, ?_, ?_⟩ <;> dsimp only <;>
      simp only [length_add_epsilon_transition, add_state_snd, length_add_state] <;> omega
  | .Literal cs => by
    intro N N' c h hv
    cases cs with
    | nil => cases h
    | cons c0 cs =>
      have he : build_node (.Literal (c0 :: cs)) N =
          some (N.add_state.1.add_state.1.add_char_transition N.add_state.2
              N.add_state.1.add_state.2 c0,
            ⟨N.add_state.2, N.add_state.1.add_state.2⟩) := rfl
      rw [he] at h
      simp only [Option.some.injEq] at h
      obtain ⟨rfl, rfl⟩ := Prod.mk.injEq .. ▸ h
      have hv2 := statesValid_add_state (statesValid_add_state hv)
      have hl2 : N.add_state.1.add_state.1.states.length = N.states.length + 2 := by
        rw [length_add_state, length_add_state]
      have hj : N.add_state.1.add_state.2 = N.states.length + 1 := by
        rw [add_state_snd, length_add_state]
      have hjlt : N.add_state.1.add_state.2 < N.add_state.1.add_state.1.states.length := by
        omega
      refine ⟨statesValid_push_transition hv2 hjlt, ?_, ?_, ?_⟩ <;> dsimp only <;>
        simp only [length_add_char_transition, add_state_snd, length_add_state] <;> omega
  | .Class neg items => by
    intro N N' c h hv
    have he : build_node (.Class neg items) N =
        (match addClassItems N.add_state.2 N.add_state.1.add_state.2 items
            N.add_state.1.add_state.1 with
          | none => none
          | some n => some (n, ⟨N.add_state.2, N.add_state.1.add_state.2⟩)) := rfl
    rw [he] at h
    have hv2 := statesValid_add_state (statesValid_add_state hv)
    have hl2 : N.add_state.1.add_state.1.states.length = N.states.length + 2 := by
      rw [length_add_state, length_add_state]
    have hj : N.add_state.1.add_state.2 = N.states.length + 1 := by
      rw [add_state_snd, length_add_state]
    cases hcl : addClassItems N.add_state.2 N.add_state.1.add_state.2 items
        N.add_state.1.add_state.1 with
    | none => rw [hcl] at h; cases h
    | some N3 =>
      rw [hcl] at h
      simp only [Option.some.injEq] at h
      obtain ⟨rfl, rfl⟩ := Prod.mk.injEq .. ▸ h
      have hjlt : N.add_state.1.add_state.2 < N.add_state.1.add_state.1.states.length := by
        omega
      obtain ⟨hv3, hlen3⟩ := addClassItems_valid _ _ items _ _ hcl hv2 hjlt
      have hi : N.add_state.2 = N.states.length := rfl
      exact ⟨hv3, by omega, by dsimp only; omega, by dsimp only; omega⟩
  | .Assert a => by
    intro N N' c h hv
    have he : build_node (.Assert a) N =
        some (N.add_state.1.add_state.1.add_epsilon_transition N.add_state.2
            N.add_state.1.add_state.2,
          ⟨N.add_state.2, N.add_state.1.add_state.2⟩) := rfl
    rw [he] at h
    simp only [Option.some.injEq] at h
    obtain ⟨rfl, rfl⟩ := Prod.mk.injEq .. ▸ h
    have hv2 := statesValid_add_state (statesValid_add_state hv)
    have hl2 : N.add_state.1.add_state.1.states.length = N.states.length + 2 := by
      rw [length_add_state, length_add_state]
    have hj : N.add_state.1.add_state.2 = N.states.length + 1 := by
      rw [add_state_snd, length_add_state]
    have hjlt : N.add_state.1.add_state.2 < N.add_state.1.add_state.1.states.length := by
      omega
    refine ⟨statesValid_push_transition hv2 hjlt, ?_, ?_, ?_⟩ <;> dsimp only <;>
      simp only [length_add_epsilon_transition, add_state_snd, length_add_state] <;> omega
  | .Repetition rep r => fun N N' c h hv =>
    build_repetition_valid (build_node_valid r) rep N N' c h hv
  | .Concat rs => by
    intro N N' c h hv
    have he : build_node (.Concat rs) N =
        (match buildConcatList rs N.add_state.1 N.add_state.2 with
          | none => none
          | some (n, prev) => some (n, ⟨N.add_state.2, prev⟩)) := rfl
    rw [he] at h
    cases hbc : buildConcatList rs N.add_state.1 N.add_state.2 with
    | none => rw [hbc] at h; cases h
    | some np =>
      obtain ⟨N3, prev⟩ := np
      rw [hbc] at h
      simp only [Option.some.injEq] at h
      obtain ⟨rfl, rfl⟩ := Prod.mk.injEq .. ▸ h
      obtain ⟨hv3, hlen3, hprev⟩ := buildConcatList_valid rs _ _ _ _ hbc
        (statesValid_add_state hv) (by rw [add_state_snd, length_add_state]; omega)
      rw [length_add_state] at hlen3
      have hi : N.add_state.2 = N.states.length := rfl
      exact ⟨hv3, by omega, by dsimp only; omega, by dsimp only; exact hprev⟩
  | .Alternation rs => by
    intro N N' c h hv
    have he : build_node (.Alternation rs) N =
        (match buildAlternationList rs N.add_state.2 N.add_state.1.add_state.2
            N.add_state.1.add_state.1 with
          | none => none
          | some n => some (n, ⟨N.add_state.2, N.add_state.1.add_state.2⟩)) := rfl
    rw [he] at h
    have hv2 := statesValid_add_state (statesValid_add_state hv)
    have hl2 : N.add_state.1.add_state.1.states.length = N.states.length + 2 := by
      rw [length_add_state, length_add_state]
    have hj : N.add_state.1.add_state.2 = N.states.length + 1 := by
      rw [add_state_snd, length_add_state]
    cases hba : buildAlternationList rs N.add_state.2 N.add_state.1.add_state.2
        N.add_state.1.add_state.1 with
    | none => rw [hba] at h; cases h
    | some N3 =>
      rw [hba] at h
      simp only [Option.some.injEq] at h
      obtain ⟨rfl, rfl⟩ := Prod.mk.injEq .. ▸ h
      have hjlt : N.add_state.1.add_state.2 < N.add_state.1.add_state.1.states.length := by
        omega
      obtain ⟨hv3, hlen3⟩ := buildAlternationList_valid rs _ _ _ _ hba hv2 hjlt
      have hi : N.add_state.2 = N.states.length := rfl
      exact ⟨hv3, by omega, by dsimp only; omega, by dsimp only; omega⟩

/-- The element loop of build_concat preserves validity and returns an
existing state. -/
theorem buildConcatList_valid : ∀ (rs : List regex.Regex) (N : NFA) (prev : Nat)
    (N' : NFA) (last : Nat),
    buildConcatList rs N prev = some (N', last) → StatesValid N →
    prev < N.states.length →
    StatesValid N' ∧ N.states.length ≤ N'.states.length ∧ last < N'.states.length
  | [] => by
    intro N prev N' last h hv hp
    simp only [buildConcatList, Option.some.injEq, Prod.mk.injEq] at h
    obtain ⟨rfl, rfl⟩ := h
    exact ⟨hv, Nat.le_refl _, hp⟩
  | r :: rs => by
    intro N prev N' last h hv hp
    simp only [buildConcatList] at h
    cases hfe : build_node r N with
    | none => rw [hfe] at h; cases h
    | some nc =>
      obtain ⟨N1, comp⟩ := nc
      rw [hfe] at h
      obtain ⟨hv1, hlen1, hci, hca⟩ := build_node_valid r N N1 comp hfe hv
      have hva : StatesValid (N1.add_epsilon_transition prev comp.initial) :=
        statesValid_push_transition hv1 hci
      obtain ⟨hv', hlen', hlast⟩ := buildConcatList_valid rs _ comp.accepting N' last h hva
        (by rw [length_add_epsilon_transition]; omega)
      rw [length_add_epsilon_transition] at hlen'
      exact ⟨hv', by omega, hlast⟩

/-- The element loop of build_alternation preserves validity. -/
theorem buildAlternationList_valid : ∀ (rs : List regex.Regex)
    (initial accepting : Nat) (N N' : NFA),
    buildAlternationList rs initial accepting N = some N' → StatesValid N →
    accepting < N.states.length →
    StatesValid N' ∧ N.states.length ≤ N'.states.length
  | [] => by
    intro initial accepting N N' h hv _
    simp only [buildAlternationList, Option.some.injEq] at h
    subst h
    exact ⟨hv, Nat.le_refl _⟩
  | r :: rs => by
    intro initial accepting N N' h hv hacc
    simp only [buildAlternationList] at h
    cases hfe : build_node r N with
    | none => rw [hfe] at h; cases h
    | some nc =>
      obtain ⟨N1, comp⟩ := nc
      rw [hfe] at h
      obtain ⟨hv1, hlen1, hci, hca⟩ := build_node_valid r N N1 comp hfe hv
      have hva : StatesValid (N1.add_epsilon_transition initial comp.initial) :=
        statesValid_push_transition hv1 hci
      have hvb : StatesValid ((N1.add_epsilon_transition initial
          comp.initial).add_epsilon_transition comp.accepting accepting) :=
        statesValid_push_transition hva
          (by rw [length_add_epsilon_transition]; omega)
      obtain ⟨hv', hlen'⟩ := buildAlternationList_valid rs initial accepting _ N' h hvb
        (by rw [length_add_epsilon_transition, length_add_epsilon_transition]; omega)
      rw [length_add_epsilon_transition, length_add_epsilon_transition] at hlen'
      exact ⟨hv', by omega⟩

end

end nfa

/-- C10: every NFA `NFA::from_regex` returns is well-formed for
simulation — its initial state, its accepting state, and the target of
every transition of every state are valid indices into the states array.
-/
theorem from_regex_well_formed (r : regex.Regex) (N : nfa.NFA)
    (h : nfa.NFA.from_regex r = some N) : nfa.WF N := by
  unfold nfa.NFA.from_regex at h
  cases hb : nfa.build_node r nfa.NFA.new with
  | none => rw [hb] at h; cases h
  | some nc =>
    obtain ⟨n, comp⟩ := nc
    rw [hb] at h
    simp only [Option.some.injEq] at h
    subst h
    obtain ⟨hv, -, hci, hca⟩ := nfa.build_node_valid r _ _ _ hb
      (by intro s hs; simp [nfa.NFA.new] at hs)
    exact ⟨hci, hca, hv⟩

/-- Witness for C10 on the NFA built from the IR of the empty pattern. -/
theorem from_regex_well_formed_witness :
    nfa.WF ⟨[⟨[⟨1, none⟩]⟩, ⟨[]⟩], 0, 1⟩ :=
  from_regex_well_formed .Empty _ rfl

end AGrep

